import Mathlib

/-!
Verification of the stock-search engine's search core (Go sources under
`search/`, `loader/`).  The code is shallowly embedded: Go float64 score
arithmetic is modelled exactly over `ℚ` (the scoring formulas use only
addition and multiplication by decimal constants), the third-party text
index (bleve) is modelled as an oracle mapping a search request to either
an error or a list of hits, and Go's in-place loops are modelled as folds
over index ranges.
-/

namespace StockSearch

/-- The instrument record (`models.Stock`): symbol, name, exchange, type,
brand, sector, industry, tags, and the static popularity score. -/
structure Stock where
  symbol : String
  name : String
  exchange : String
  type : String
  brand : String
  sector : String
  industry : String
  tags : String
  popularityScore : ℚ
deriving DecidableEq, Repr

/-- A leaf bleve query as the engine constructs them: term query,
prefix query, match (tokenized) query, or wildcard query.  Each carries
the target field (`SetField`) and the boost (`SetBoost`, default 1). -/
inductive BLeaf where
  | term (t : String) (field : String) (boost : ℚ)
  | prefixQ (t : String) (field : String) (boost : ℚ)
  | matchQ (t : String) (field : String) (boost : ℚ)
  | wildcard (t : String) (field : String) (boost : ℚ)
deriving DecidableEq, Repr

/-- A bleve query as the engine sends them to the index: a bare leaf,
or a disjunction / conjunction of leaves (the engine never nests
combinators). -/
inductive BQuery where
  | leaf (q : BLeaf)
  | disjunction (qs : List BLeaf)
  | conjunction (qs : List BLeaf)
deriving DecidableEq, Repr

/-- A bleve search request: the query, the stored fields to return
per hit, and the size limit (`searchRequest.Size`). -/
structure SearchRequest where
  query : BQuery
  fields : List String
  size : Nat
deriving DecidableEq, Repr

/-- The stored fields of one search hit (`hit.Fields` in Go, a
`map[string]interface{}`): each field either holds a value of the
expected type or is absent / of another type, in which case the Go
type assertion yields the zero value.  Text scores and the popularity
score are `ℚ` here (Go `float64`). -/
structure HitFields where
  symbol : Option String
  name : Option String
  exchange : Option String
  type : Option String
  brand : Option String
  sector : Option String
  industry : Option String
  tags : Option String
  popularity_score : Option ℚ
deriving DecidableEq, Repr

/-- One hit returned by the index: its stored fields and its text
relevance score (`hit.Score`). -/
structure Hit where
  fields : HitFields
  score : ℚ
deriving DecidableEq, Repr

/-- Go helper `getString`: type-assert a field to string, default "". -/
def getString (o : Option String) : String := o.getD ""

/-- Go helper `getFloat`: type-assert a field to float64, default 0.0. -/
def getFloat (o : Option ℚ) : ℚ := o.getD 0

/-- The index oracle: a store maps a search request to an error or a
hit list.  The engine code treats the index as exactly this interface
(`e.index.Search(searchRequest)` returning `(*SearchResult, error)`). -/
def Store : Type := SearchRequest → Except String (List Hit)

/-! ### String primitives

Go's `strings.ToLower` / `ToUpper` / `strings.HasPrefix` / `Contains`
are modelled directly over the string's character data (computable by
the kernel, unlike `String.toLower`). -/

/-- Go `strings.ToLower`, character-wise lowercasing. -/
def toLowerStr (s : String) : String := ⟨s.data.map Char.toLower⟩

/-- Go `strings.ToUpper`, character-wise uppercasing. -/
def toUpperStr (s : String) : String := ⟨s.data.map Char.toUpper⟩

/-- Starts-with on character lists. -/
def isPrefixB : List Char → List Char → Bool
  | [], _ => true
  | _ :: _, [] => false
  | a :: as, b :: bs => a == b && isPrefixB as bs

/-- Substring containment on character lists. -/
def isInfixB (n : List Char) : List Char → Bool
  | [] => isPrefixB n []
  | c :: cs => isPrefixB n (c :: cs) || isInfixB n cs

/-! ### The in-place double-loop sort

Both search paths sort their scored candidates with the same in-place
exchange loop (the code comments call it a "simple bubble sort"):

```
for i := 0; i < len(s); i++ {
  for j := i + 1; j < len(s); j++ {
    if s[j].FinalScore > s[i].FinalScore { s[i], s[j] = s[j], s[i] }
  }
}
```

It is embedded generically over the key function below. -/

/-- Swap the elements at positions `i` and `j` of a list (Go's
`s[i], s[j] = s[j], s[i]`); out-of-range indices leave the list
unchanged (never reached for the loop bounds used). -/
def swapAt (l : List α) (i j : Nat) : List α :=
  match l.get? i, l.get? j with
  | some x, some y => (l.set i y).set j x
  | _, _ => l

/-- One inner-loop step at indices `i < j`: swap exactly when
`key s[j] > key s[i]`. -/
def sortStep (key : α → ℚ) (l : List α) (i j : Nat) : List α :=
  match l.get? i, l.get? j with
  | some x, some y => if key x < key y then swapAt l i j else l
  | _, _ => l

/-- The inner loop `for j := i+1; j < len(s); j++`. -/
def sortPass (key : α → ℚ) (l : List α) (i : Nat) : List α :=
  (List.range' (i + 1) (l.length - (i + 1))).foldl
    (fun acc j => sortStep key acc i j) l

/-- The full double loop `for i := 0; i < len(s); i++ { inner }`.
This is the sort both `regularSearch` and `semanticSearch` run on
their scored results. -/
def sortScored (key : α → ℚ) (l : List α) : List α :=
  (List.range' 0 l.length).foldl (fun acc i => sortPass key acc i) l

/-- Structural description of one inner pass: starting with pivot value
`cur` (the current `s[i]`), walk the tail left to right; each element
beating the pivot becomes the new pivot and the old pivot takes its
place.  Returns the final pivot together with the rewritten tail. -/
def selectMax (key : α → ℚ) (cur : α) : List α → α × List α
  | [] => (cur, [])
  | y :: ys =>
    if key cur < key y then
      let p := selectMax key y ys
      (p.1, cur :: p.2)
    else
      let p := selectMax key cur ys
      (p.1, y :: p.2)

/-- Structural description of the whole double loop, with fuel (the
fuel is always instantiated with the list length, which suffices since
`selectMax` preserves length). -/
def sortStructAux (key : α → ℚ) : Nat → List α → List α
  | 0, l => l
  | _ + 1, [] => []
  | n + 1, x :: xs =>
    let p := selectMax key x xs
    p.1 :: sortStructAux key n p.2

/-- Structural description of `sortScored` (proved equal to it below). -/
def sortStruct (key : α → ℚ) (l : List α) : List α :=
  sortStructAux key l.length l

/-! ### The regular search path (`BleveEngine.regularSearch`) -/

/-- The six-clause disjunction `regularSearch` formulates for a raw
query string: exact term on symbol (boost 10), prefix on symbol
(boost 5), match on name (boost 3), wildcard `*q*` on symbol (boost 2),
wildcard on name (boost 1.5), wildcard on brand (boost 1).  The term,
prefix and wildcard payloads are lowercased (`strings.ToLower`); the
match query receives the raw query (bleve's analyzer lowercases it). -/
def regularSearchQuery (query : String) : BQuery :=
  .disjunction
    [ .term (toLowerStr query) "symbol" 10
    , .prefixQ (toLowerStr query) "symbol" 5
    , .matchQ query "name" 3
    , .wildcard ("*" ++ toLowerStr query ++ "*") "symbol" 2
    , .wildcard ("*" ++ toLowerStr query ++ "*") "name" 1.5
    , .wildcard ("*" ++ toLowerStr query ++ "*") "brand" 1 ]

/-- The request `regularSearch` sends: the six-clause disjunction, the
nine stored fields, and `Size = 100`. -/
def regularSearchRequest (query : String) : SearchRequest :=
  { query := regularSearchQuery query
  , fields := ["symbol", "name", "exchange", "type", "brand", "sector",
               "industry", "tags", "popularity_score"]
  , size := 100 }

/-- The instrument a search hit is turned into (both search paths build
this same composite literal from the nine requested stored fields). -/
def stockOfHit (hit : Hit) : Stock :=
  { symbol := getString hit.fields.symbol
  , name := getString hit.fields.name
  , exchange := getString hit.fields.exchange
  , type := getString hit.fields.type
  , brand := getString hit.fields.brand
  , sector := getString hit.fields.sector
  , industry := getString hit.fields.industry
  , tags := getString hit.fields.tags
  , popularityScore := getFloat hit.fields.popularity_score }

/-- The regular path's scored candidate (`ScoredStock` in
`regularSearch`). -/
structure ScoredStock where
  stock : Stock
  textScore : ℚ
  finalScore : ℚ
deriving DecidableEq, Repr

/-- Score one hit in the regular path:
`finalScore = textScore*0.7 + popularityScore*0.3` with
`textScore = hit.Score`. -/
def scoreHit (hit : Hit) : ScoredStock :=
  { stock := stockOfHit hit
  , textScore := hit.score
  , finalScore := hit.score * 0.7 + getFloat hit.fields.popularity_score * 0.3 }

/-- The hit-processing part of `regularSearch`: score every hit, sort
by final score with the double loop, and keep the stocks. -/
def regularSearchHits (hits : List Hit) : List Stock :=
  (sortScored (fun s => s.finalScore) (hits.map scoreHit)).map (fun s => s.stock)

/-- `BleveEngine.regularSearch`: formulate the request, run it against
the store, return `[]` on a store error, otherwise process the hits. -/
def regularSearch (store : Store) (query : String) : List Stock :=
  match store (regularSearchRequest query) with
  | .error _ => []
  | .ok hits => regularSearchHits hits

/-! ### The thematic search path (`BleveEngine.semanticSearch`)

The `SemanticSearch` component itself (keyword tables, sector
extraction) lives in a source file not present here; the engine only
calls its three methods, so it is modelled as an abstract record of
those three functions. -/

/-- The semantic-search collaborator: thematic-query detection, sector
extraction, and the sector → member-symbols table lookup. -/
structure SemanticSearch where
  isSemanticQuery : String → Bool
  extractSectors : String → List String
  getStockSymbolsForSectors : List String → List String

/-- The request `semanticSearch` sends once symbols are resolved: a
disjunction of one exact term clause per member symbol (lowercased,
field "symbol", default boost), the nine stored fields, `Size = 100`.
(The Go code builds the first clause and then appends the rest; for a
non-empty symbol list that is exactly this map.) -/
def semanticSearchRequest (targetSymbols : List String) : SearchRequest :=
  { query := .disjunction (targetSymbols.map (fun s => .term (toLowerStr s) "symbol" 1))
  , fields := ["symbol", "name", "exchange", "type", "brand", "sector",
               "industry", "tags", "popularity_score"]
  , size := 100 }

/-- The thematic path's scored candidate (the local `ScoredStock` of
`semanticSearch`, which has no text-score field). -/
structure SemScoredStock where
  stock : Stock
  finalScore : ℚ
deriving DecidableEq, Repr

/-- Score one hit in the thematic path: the final score is the
popularity score alone; `hit.Score` is not read. -/
def semScoreHit (hit : Hit) : SemScoredStock :=
  { stock := stockOfHit hit
  , finalScore := getFloat hit.fields.popularity_score }

/-- The hit-processing part of `semanticSearch`: score by popularity,
sort descending with the same double loop, keep the stocks. -/
def semanticSearchHits (hits : List Hit) : List Stock :=
  (sortScored (fun s => s.finalScore) (hits.map semScoreHit)).map (fun s => s.stock)

/-- `BleveEngine.semanticSearch`: extract sectors (falling back to the
regular path when none matched), resolve member symbols (returning `[]`
when the union is empty), run the disjunctive symbol query, return `[]`
on a store error, otherwise process the hits. -/
def semanticSearch (sem : SemanticSearch) (store : Store) (query : String) :
    List Stock :=
  let sectors := sem.extractSectors query
  if sectors.isEmpty then
    regularSearch store query
  else
    let targetSymbols := sem.getStockSymbolsForSectors sectors
    if targetSymbols.isEmpty then []
    else
      match store (semanticSearchRequest targetSymbols) with
      | .error _ => []
      | .ok hits => semanticSearchHits hits

/-- `BleveEngine.Search`: dispatch to the thematic path when a semantic
component is present and classifies the query as thematic, otherwise to
the regular path. -/
def bleveSearch (sem : Option SemanticSearch) (store : Store) (query : String) :
    List Stock :=
  match sem with
  | some s => if s.isSemanticQuery query then semanticSearch s store query
              else regularSearch store query
  | none => regularSearch store query

/-! ### The lookup service (`BleveEngine.GetBySymbol` / `GetStock`) -/

/-- The request `GetBySymbol` sends: a bare exact term query on the
lowercased symbol, only six stored fields (no sector / industry /
tags), `Size = 1`. -/
def getBySymbolRequest (symbol : String) : SearchRequest :=
  { query := .leaf (.term (toLowerStr symbol) "symbol" 1)
  , fields := ["symbol", "name", "exchange", "type", "brand", "popularity_score"]
  , size := 1 }

/-- The instrument a lookup hit is turned into: the six requested
fields; sector, industry and tags are left at their zero value `""`
(the Go composite literal omits them). -/
def stockOfLookupHit (hit : Hit) : Stock :=
  { symbol := getString hit.fields.symbol
  , name := getString hit.fields.name
  , exchange := getString hit.fields.exchange
  , type := getString hit.fields.type
  , brand := getString hit.fields.brand
  , sector := ""
  , industry := ""
  , tags := ""
  , popularityScore := getFloat hit.fields.popularity_score }

/-- `BleveEngine.GetBySymbol`: run the exact-symbol query; on a store
error or zero hits return `none` (Go `nil`), otherwise build the
instrument from the first hit. -/
def getBySymbol (store : Store) (symbol : String) : Option Stock :=
  match store (getBySymbolRequest symbol) with
  | .error _ => none
  | .ok [] => none
  | .ok (hit :: _) => some (stockOfLookupHit hit)

/-- The request `GetStock` sends when an exchange is given: a
conjunction of exact term clauses on symbol and exchange (both
lowercased), six stored fields, `Size = 1`. -/
def getStockRequest (symbol exchange : String) : SearchRequest :=
  { query := .conjunction [ .term (toLowerStr symbol) "symbol" 1
                          , .term (toLowerStr exchange) "exchange" 1 ]
  , fields := ["symbol", "name", "exchange", "type", "brand", "popularity_score"]
  , size := 1 }

/-- `BleveEngine.GetStock`: when `exchange` is non-empty, run the
conjunctive query and return its first hit if the store succeeded with
at least one hit; in every other case fall back to `GetBySymbol`. -/
def getStock (store : Store) (symbol exchange : String) : Option Stock :=
  if exchange ≠ "" then
    match store (getStockRequest symbol exchange) with
    | .ok (hit :: _) => some (stockOfLookupHit hit)
    | _ => getBySymbol store symbol
  else
    getBySymbol store symbol

/-! ### The in-memory engine (`InMemoryEngine`) -/

/-- Go `strings.EqualFold`, modelled as case-insensitive equality via
lowercasing. -/
def equalFold (a b : String) : Bool := toLowerStr a == toLowerStr b

/-- `InMemoryEngine.GetBySymbol`: the first stored stock whose symbol
matches case-insensitively, if any. -/
def inMemoryGetBySymbol (stocks : List Stock) (symbol : String) : Option Stock :=
  stocks.find? (fun stock => equalFold stock.symbol symbol)

/-- `InMemoryEngine.GetStock`: the first stored stock matching symbol
and exchange case-insensitively; if the scan finds none, fall back to
`InMemoryEngine.GetBySymbol`. -/
def inMemoryGetStock (stocks : List Stock) (symbol exchange : String) :
    Option Stock :=
  match stocks.find? (fun stock =>
      equalFold stock.symbol symbol && equalFold stock.exchange exchange) with
  | some stock => some stock
  | none => inMemoryGetBySymbol stocks symbol

/-! ### The loader's popularity assignment
(`loader.CalculatePopularityScore`) -/

/-- Tier 1 of `CalculatePopularityScore`: most popular stocks. -/
def tier1 : List (String × ℚ) :=
  [ ("RELIANCE", 1.0), ("TCS", 0.98), ("HDFCBANK", 0.96), ("INFY", 0.95)
  , ("ICICIBANK", 0.94), ("HINDUNILVR", 0.93), ("ITC", 0.92), ("SBIN", 0.91)
  , ("BHARTIARTL", 0.90), ("KOTAKBANK", 0.90) ]

/-- Tier 2 of `CalculatePopularityScore`: well-known large caps. -/
def tier2 : List (String × ℚ) :=
  [ ("BAJFINANCE", 0.85), ("LT", 0.84), ("ASIANPAINT", 0.83), ("AXISBANK", 0.82)
  , ("MARUTI", 0.81), ("SUNPHARMA", 0.80), ("TITAN", 0.79), ("NESTLEIND", 0.78)
  , ("ULTRACEMCO", 0.77), ("WIPRO", 0.76), ("TATAMOTORS", 0.75)
  , ("TATAPOWER", 0.74), ("TATASTEEL", 0.73), ("ADANIPORTS", 0.72)
  , ("ADANIENT", 0.71), ("ONGC", 0.70) ]

/-- Tier 3 of `CalculatePopularityScore`: mid-caps and sector leaders. -/
def tier3 : List (String × ℚ) :=
  [ ("DIVISLAB", 0.65), ("DRREDDY", 0.64), ("CIPLA", 0.63), ("TECHM", 0.62)
  , ("HCLTECH", 0.61), ("POWERGRID", 0.60), ("NTPC", 0.59), ("COALINDIA", 0.58)
  , ("BPCL", 0.57), ("IOC", 0.56), ("GRASIM", 0.55), ("JSWSTEEL", 0.54)
  , ("HINDALCO", 0.53), ("VEDL", 0.52), ("INDUSINDBK", 0.51)
  , ("BAJAJFINSV", 0.50), ("M&M", 0.49), ("EICHERMOT", 0.48)
  , ("HEROMOTOCO", 0.47), ("BRITANNIA", 0.46), ("SHREECEM", 0.45)
  , ("UPL", 0.44), ("APOLLOHOSP", 0.43), ("PIDILITIND", 0.42)
  , ("GODREJCP", 0.41), ("DABUR", 0.40) ]

/-- `loader.CalculatePopularityScore`: uppercase the symbol, look it up
in the three tier tables in order, default 0.2. -/
def calculatePopularityScore (symbol : String) : ℚ :=
  let s := toUpperStr symbol
  match tier1.lookup s with
  | some score => score
  | none =>
    match tier2.lookup s with
    | some score => score
    | none =>
      match tier3.lookup s with
      | some score => score
      | none => 0.2

/-! ### Spec-modelled clause semantics

The scoring of individual clauses is performed by the external bleve
library, which is not part of this repository.  The spec describes it:
a hit matching any clause is a candidate, and "its raw relevance is the
sum of the weighted scores of the clauses it satisfies".  The
definitions below model that description, with a unit base score per
satisfied clause, so each satisfied clause contributes its weight. -/

/-- Word-splitting worker: accumulate alphanumeric runs, break at any
other character. -/
def tokensAux : List Char → List Char → List (List Char)
  | [], acc => if acc.isEmpty then [] else [acc.reverse]
  | c :: cs, acc =>
    if c.isAlphanum then tokensAux cs (c :: acc)
    else if acc.isEmpty then tokensAux cs []
    else acc.reverse :: tokensAux cs []

/-- Modelled from the spec: the analyzer's tokenization used by a match
query — lowercase, split on non-alphanumeric characters, drop empty
tokens. -/
def tokenize (s : String) : List (List Char) :=
  tokensAux (toLowerStr s).data []

/-- The text field of an instrument a clause targets. -/
def fieldValue (stock : Stock) (field : String) : String :=
  if field = "symbol" then stock.symbol
  else if field = "name" then stock.name
  else if field = "exchange" then stock.exchange
  else if field = "type" then stock.type
  else if field = "brand" then stock.brand
  else if field = "sector" then stock.sector
  else if field = "industry" then stock.industry
  else if field = "tags" then stock.tags
  else ""

/-- Modelled from the spec: whether an instrument satisfies one leaf
clause.  Term = exact (case-insensitive) equality; prefix =
starts-with; match = some query token occurs among the field's tokens;
wildcard = substring containment (the engine only builds both-sided
`*q*` patterns, so the pattern's non-star characters are the
substring). -/
def satisfiesLeaf (stock : Stock) : BLeaf → Bool
  | .term t field _ => toLowerStr (fieldValue stock field) == t
  | .prefixQ t field _ => isPrefixB t.data (toLowerStr (fieldValue stock field)).data
  | .matchQ t field _ =>
    (tokenize t).any (fun tok => (tokenize (fieldValue stock field)).contains tok)
  | .wildcard t field _ =>
    isInfixB (t.data.filter (fun c => c ≠ '*'))
      (toLowerStr (fieldValue stock field)).data

/-- The boost carried by a leaf clause. -/
def leafBoost : BLeaf → ℚ
  | .term _ _ b => b
  | .prefixQ _ _ b => b
  | .matchQ _ _ b => b
  | .wildcard _ _ b => b

/-- Modelled from the spec: the raw relevance of an instrument for a
query — for a disjunction, the sum over its clauses of the clause
weight when satisfied. -/
def specTextRelevance (stock : Stock) : BQuery → ℚ
  | .leaf q => if satisfiesLeaf stock q then leafBoost q else 0
  | .disjunction qs =>
    (qs.map (fun q => if satisfiesLeaf stock q then leafBoost q else 0)).sum
  | .conjunction qs =>
    if qs.all (satisfiesLeaf stock) then (qs.map leafBoost).sum else 0

/-- Modelled from the spec: the final regular-path score of an
instrument under the spec's clause-scoring model —
`textRelevance * 0.7 + popularityScore * 0.3` with the text relevance
taken against the six-clause query for `q`. -/
def specFinalScore (stock : Stock) (query : String) : ℚ :=
  specTextRelevance stock (regularSearchQuery query) * 0.7
    + stock.popularityScore * 0.3

/-! ### Concrete sample data (used in counterexamples and witnesses) -/

/-- A fully populated hit-field record with the given symbol and
popularity score. -/
def sampleFields (sym : String) (pop : ℚ) : HitFields :=
  { symbol := some sym, name := some "n", exchange := some "NSE"
  , type := some "Stock", brand := some "", sector := some ""
  , industry := some "", tags := some "", popularity_score := some pop }

/-- A hit with the given symbol, text score and popularity score. -/
def sampleHit (sym : String) (score pop : ℚ) : Hit :=
  { fields := sampleFields sym pop, score := score }

/-- An instrument with the given symbol and exchange, all other text
fields empty, popularity 0. -/
def sampleStock (sym exch : String) : Stock :=
  { symbol := sym, name := "", exchange := exch, type := "", brand := ""
  , sector := "", industry := "", tags := "", popularityScore := 0 }

/-! ## Theorems

### Sort correctness

The double loop is first related to its structural description
(`sortStruct`), and sortedness / permutation facts are proved on the
latter. -/

theorem get?_append_cons (pre : List α) (x : α) (suf : List α) :
    (pre ++ x :: suf).get? pre.length = some x := by
  induction pre with
  | nil => rfl
  | cons a as ih =>
    rw [List.cons_append, List.length_cons, List.get?_cons_succ]
    exact ih

theorem set_append_cons (pre : List α) (x y : α) (suf : List α) :
    (pre ++ x :: suf).set pre.length y = pre ++ y :: suf := by
  induction pre with
  | nil => rfl
  | cons a as ih =>
    rw [List.cons_append, List.length_cons, List.set_cons_succ, ih,
      List.cons_append]

theorem get?_append_cons_mid (pre : List α) (cur : α) (mid : List α) (y : α)
    (rest : List α) :
    (pre ++ cur :: (mid ++ y :: rest)).get? (pre.length + 1 + mid.length)
      = some y := by
  have hrw : pre ++ cur :: (mid ++ y :: rest) = (pre ++ cur :: mid) ++ y :: rest := by
    simp
  have hlen : (pre ++ cur :: mid).length = pre.length + 1 + mid.length := by
    simp; omega
  rw [hrw, ← hlen]; exact get?_append_cons ..

theorem swapAt_of_get? {l : List α} {i j : Nat} {x y : α}
    (hi : l.get? i = some x) (hj : l.get? j = some y) :
    swapAt l i j = (l.set i y).set j x := by
  unfold swapAt; rw [hi, hj]

theorem sortStep_of_get? {key : α → ℚ} {l : List α} {i j : Nat} {x y : α}
    (hi : l.get? i = some x) (hj : l.get? j = some y) :
    sortStep key l i j = if key x < key y then swapAt l i j else l := by
  unfold sortStep; rw [hi, hj]

theorem swapAt_append_cons (pre : List α) (cur : α) (mid : List α) (y : α)
    (rest : List α) :
    swapAt (pre ++ cur :: (mid ++ y :: rest)) pre.length
        (pre.length + 1 + mid.length)
      = pre ++ y :: (mid ++ cur :: rest) := by
  rw [swapAt_of_get? (get?_append_cons ..) (get?_append_cons_mid ..)]
  have h1 : (pre ++ cur :: (mid ++ y :: rest)).set pre.length y
      = pre ++ y :: (mid ++ y :: rest) := set_append_cons ..
  rw [h1]
  have h2 : pre ++ y :: (mid ++ y :: rest) = (pre ++ y :: mid) ++ y :: rest := by
    simp
  have hlen2 : (pre ++ y :: mid).length = pre.length + 1 + mid.length := by
    simp; omega
  rw [h2, ← hlen2, set_append_cons]
  simp

theorem foldl_sortStep (key : α → ℚ) (pre : List α) :
    ∀ (rest mid : List α) (cur : α),
      (List.range' (pre.length + 1 + mid.length) rest.length).foldl
          (fun acc j => sortStep key acc pre.length j)
          (pre ++ cur :: (mid ++ rest))
        = pre ++ (selectMax key cur rest).1 :: (mid ++ (selectMax key cur rest).2) := by
  intro rest
  induction rest with
  | nil => intro mid cur; simp [selectMax]
  | cons y ys ih =>
    intro mid cur
    rw [List.length_cons, List.range'_succ, List.foldl_cons]
    have hstep : sortStep key (pre ++ cur :: (mid ++ y :: ys)) pre.length
        (pre.length + 1 + mid.length)
        = if key cur < key y
          then pre ++ y :: (mid ++ cur :: ys)
          else pre ++ cur :: (mid ++ y :: ys) := by
      rw [sortStep_of_get? (get?_append_cons ..) (get?_append_cons_mid ..)]
      by_cases h : key cur < key y
      · rw [if_pos h, if_pos h, swapAt_append_cons]
      · rw [if_neg h, if_neg h]
    rw [hstep]
    by_cases h : key cur < key y
    · rw [if_pos h]
      have harr : pre ++ y :: (mid ++ cur :: ys)
          = pre ++ y :: ((mid ++ [cur]) ++ ys) := by simp
      have hstart : pre.length + 1 + mid.length + 1
          = pre.length + 1 + (mid ++ [cur]).length := by simp; omega
      rw [harr, hstart, ih (mid ++ [cur]) y]
      simp [selectMax, h]
    · rw [if_neg h]
      have harr : pre ++ cur :: (mid ++ y :: ys)
          = pre ++ cur :: ((mid ++ [y]) ++ ys) := by simp
      have hstart : pre.length + 1 + mid.length + 1
          = pre.length + 1 + (mid ++ [y]).length := by simp; omega
      rw [harr, hstart, ih (mid ++ [y]) cur]
      simp [selectMax, h]

theorem sortPass_decomp (key : α → ℚ) (pre : List α) (cur : α) (rest : List α) :
    sortPass key (pre ++ cur :: rest) pre.length
      = pre ++ (selectMax key cur rest).1 :: (selectMax key cur rest).2 := by
  have hlen : (pre ++ cur :: rest).length - (pre.length + 1) = rest.length := by
    simp; omega
  have h := foldl_sortStep key pre rest [] cur
  simp only [List.length_nil, Nat.add_zero, List.nil_append] at h
  rw [sortPass, hlen, h]

theorem selectMax_length (key : α → ℚ) (cur : α) (l : List α) :
    (selectMax key cur l).2.length = l.length := by
  induction l generalizing cur with
  | nil => rfl
  | cons y ys ih =>
    by_cases h : key cur < key y <;> simp [selectMax, h, ih]

theorem foldl_sortPass (key : α → ℚ) :
    ∀ (n : Nat) (done rest : List α), rest.length = n →
      (List.range' done.length n).foldl (fun acc i => sortPass key acc i)
          (done ++ rest)
        = done ++ sortStructAux key n rest := by
  intro n
  induction n with
  | zero =>
    intro done rest h
    rw [List.eq_nil_of_length_eq_zero h]
    simp [sortStructAux]
  | succ m ih =>
    intro done rest h
    match rest with
    | [] => simp at h
    | x :: xs =>
      rw [List.range'_succ, List.foldl_cons, sortPass_decomp]
      have hlen : (selectMax key x xs).2.length = m := by
        rw [selectMax_length]; simpa using h
      have harr : done ++ (selectMax key x xs).1 :: (selectMax key x xs).2
          = (done ++ [(selectMax key x xs).1]) ++ (selectMax key x xs).2 := by simp
      have hstart : done.length + 1 = (done ++ [(selectMax key x xs).1]).length := by
        simp
      rw [harr, hstart, ih (done ++ [(selectMax key x xs).1]) _ hlen]
      simp [sortStructAux]

theorem sortScored_eq_sortStruct (key : α → ℚ) (l : List α) :
    sortScored key l = sortStruct key l := by
  have h := foldl_sortPass key l.length [] l rfl
  simpa [sortScored, sortStruct] using h

theorem selectMax_perm (key : α → ℚ) (cur : α) (l : List α) :
    List.Perm ((selectMax key cur l).1 :: (selectMax key cur l).2) (cur :: l) := by
  induction l generalizing cur with
  | nil => simp [selectMax]
  | cons y ys ih =>
    by_cases h : key cur < key y
    · simp only [selectMax, if_pos h]
      exact (List.Perm.swap cur _ _).trans ((ih y).cons cur)
    · simp only [selectMax, if_neg h]
      exact ((List.Perm.swap y _ _).trans ((ih cur).cons y)).trans
        (List.Perm.swap cur y ys)

theorem selectMax_le (key : α → ℚ) (cur : α) (l : List α) :
    key cur ≤ key (selectMax key cur l).1 := by
  induction l generalizing cur with
  | nil => simp [selectMax]
  | cons y ys ih =>
    by_cases h : key cur < key y
    · simp only [selectMax, if_pos h]
      exact le_of_lt (lt_of_lt_of_le h (ih y))
    · simp only [selectMax, if_neg h]
      exact ih cur

theorem selectMax_mem_le (key : α → ℚ) (cur : α) (l : List α) :
    ∀ x ∈ (selectMax key cur l).2, key x ≤ key (selectMax key cur l).1 := by
  induction l generalizing cur with
  | nil => simp [selectMax]
  | cons y ys ih =>
    by_cases h : key cur < key y
    · simp only [selectMax, if_pos h]
      intro x hx
      rcases List.mem_cons.mp hx with rfl | hx
      · exact le_of_lt (lt_of_lt_of_le h (selectMax_le key y ys))
      · exact ih y x hx
    · simp only [selectMax, if_neg h]
      intro x hx
      rcases List.mem_cons.mp hx with rfl | hx
      · exact le_trans (not_lt.mp h) (selectMax_le key cur ys)
      · exact ih cur x hx

theorem sortStructAux_perm (key : α → ℚ) :
    ∀ (fuel : Nat) (l : List α), l.length ≤ fuel →
      List.Perm (sortStructAux key fuel l) l := by
  intro fuel
  induction fuel with
  | zero => intro l _; simp [sortStructAux]
  | succ n ih =>
    intro l hl
    match l with
    | [] => simp [sortStructAux]
    | x :: xs =>
      simp only [sortStructAux]
      have hlen : (selectMax key x xs).2.length ≤ n := by
        rw [selectMax_length]
        simpa using hl
      exact ((ih _ hlen).cons _).trans (selectMax_perm key x xs)

theorem sortStructAux_pairwise (key : α → ℚ) :
    ∀ (fuel : Nat) (l : List α), l.length ≤ fuel →
      List.Pairwise (fun a b => key b ≤ key a) (sortStructAux key fuel l) := by
  intro fuel
  induction fuel with
  | zero =>
    intro l hl
    rw [List.eq_nil_of_length_eq_zero (Nat.le_zero.mp hl)]
    simp [sortStructAux]
  | succ n ih =>
    intro l hl
    match l with
    | [] => simp [sortStructAux]
    | x :: xs =>
      simp only [sortStructAux]
      have hlen : (selectMax key x xs).2.length ≤ n := by
        rw [selectMax_length]
        simpa using hl
      refine List.pairwise_cons.mpr ⟨?_, ih _ hlen⟩
      intro b hb
      have hb2 : b ∈ (selectMax key x xs).2 :=
        (sortStructAux_perm key n _ hlen).mem_iff.mp hb
      exact selectMax_mem_le key x xs b hb2

/-- The double loop produces a permutation of its input. -/
theorem sortScored_perm (key : α → ℚ) (l : List α) :
    List.Perm (sortScored key l) l := by
  rw [sortScored_eq_sortStruct]
  exact sortStructAux_perm key l.length l le_rfl

/-- The double loop sorts descending by the key: in its output, every
earlier element's key is ≥ every later one's. -/
theorem sortScored_pairwise (key : α → ℚ) (l : List α) :
    List.Pairwise (fun a b => key b ≤ key a) (sortScored key l) := by
  rw [sortScored_eq_sortStruct]
  exact sortStructAux_pairwise key l.length l le_rfl

theorem sortScored_length (key : α → ℚ) (l : List α) :
    (sortScored key l).length = l.length :=
  (sortScored_perm key l).length_eq

/-! ### Claim C3 -/

/-- C3: for every non-thematic query string `q`, the query sent to the
store is the disjunction of exactly six clauses — exact term on symbol
with weight 10, prefix on symbol with weight 5, tokenized match on name
with weight 3, substring wildcard on symbol with weight 2, on name with
weight 1.5, on brand with weight 1 — and the request caps retrieval at
100, so a store honouring the cap yields at most 100 candidates. -/
theorem regular_query_six_clauses (q : String) (hits : List Hit)
    (hsize : hits.length ≤ 100) :
    regularSearchRequest q =
      { query := .disjunction
          [ .term (toLowerStr q) "symbol" 10
          , .prefixQ (toLowerStr q) "symbol" 5
          , .matchQ q "name" 3
          , .wildcard ("*" ++ toLowerStr q ++ "*") "symbol" 2
          , .wildcard ("*" ++ toLowerStr q ++ "*") "name" 1.5
          , .wildcard ("*" ++ toLowerStr q ++ "*") "brand" 1 ]
      , fields := ["symbol", "name", "exchange", "type", "brand", "sector",
                   "industry", "tags", "popularity_score"]
      , size := 100 }
    ∧ (regularSearchHits hits).length = hits.length
    ∧ (regularSearchHits hits).length ≤ 100 := by
  have hlen : (regularSearchHits hits).length = hits.length := by
    rw [regularSearchHits, List.length_map, sortScored_length, List.length_map]
  exact ⟨rfl, hlen, hlen ▸ hsize⟩

theorem regular_query_six_clauses_witness :
    ([sampleHit "tcs" 1 1].length ≤ 100) ∧
    (regularSearchHits [sampleHit "tcs" 1 1]).length ≤ 100 :=
  ⟨by decide, (regular_query_six_clauses "tcs" [sampleHit "tcs" 1 1]
      (by decide)).2.2⟩

/-! ### Claim C6 -/

/-- C6: in both search paths, a store error during search execution
yields the empty list (no fault), and so does a zero-hit response. -/
theorem search_error_or_empty_gives_empty (store : Store) (q : String)
    (sem : SemanticSearch) :
    (∀ e, store (regularSearchRequest q) = .error e →
      regularSearch store q = []) ∧
    (store (regularSearchRequest q) = .ok [] → regularSearch store q = []) ∧
    (sem.extractSectors q ≠ [] →
      (∀ e, store (semanticSearchRequest
          (sem.getStockSymbolsForSectors (sem.extractSectors q))) = .error e →
        semanticSearch sem store q = []) ∧
      (store (semanticSearchRequest
          (sem.getStockSymbolsForSectors (sem.extractSectors q))) = .ok [] →
        semanticSearch sem store q = [])) := by
  have hone : ∀ (res : Except String (List Hit)),
      store (regularSearchRequest q) = res →
      (∀ e, res = .error e → regularSearch store q = []) ∧
      (res = .ok [] → regularSearch store q = []) := by
    intro res hres
    constructor
    · intro e he; subst he; simp [regularSearch, hres]
    · intro he; subst he; simp [regularSearch, hres, regularSearchHits, sortScored]
  refine ⟨(hone _ rfl).1, (hone _ rfl).2, ?_⟩
  intro hsec
  have h1 : (sem.extractSectors q).isEmpty = false := by
    cases hh : (sem.extractSectors q).isEmpty
    · rfl
    · exact absurd (List.isEmpty_iff.mp hh) hsec
  by_cases h2 : (sem.getStockSymbolsForSectors (sem.extractSectors q)).isEmpty
  · constructor
    · intro e he; simp [semanticSearch, h1, h2]
    · intro he; simp [semanticSearch, h1, h2]
  · constructor
    · intro e he
      simp [semanticSearch, h1, eq_false_of_ne_true h2, he]
    · intro he
      simp [semanticSearch, h1, eq_false_of_ne_true h2, he, semanticSearchHits,
        sortScored]

theorem search_error_or_empty_gives_empty_witness :
    regularSearch (fun _ => .error "boom") "q" = [] ∧
    semanticSearch ⟨fun _ => true, fun _ => ["s"], fun _ => ["A"]⟩
      (fun _ => .error "boom") "q" = [] := by
  have h := search_error_or_empty_gives_empty (fun _ => .error "boom") "q"
    ⟨fun _ => true, fun _ => ["s"], fun _ => ["A"]⟩
  exact ⟨h.1 "boom" rfl, (h.2.2 (by simp)).1 "boom" rfl⟩

/-! ### Claim C7 -/

/-- C7: a query classified as thematic from which no sector is
extracted produces exactly the output of the regular path on the same
query string. -/
theorem thematic_no_sector_falls_back (sem : SemanticSearch) (store : Store)
    (q : String) (hthem : sem.isSemanticQuery q = true)
    (hnone : sem.extractSectors q = []) :
    bleveSearch (some sem) store q = regularSearch store q := by
  simp [bleveSearch, hthem, semanticSearch, hnone]

theorem thematic_no_sector_falls_back_witness :
    (⟨fun _ => true, fun _ => [], fun _ => []⟩ :
        SemanticSearch).isSemanticQuery "top gainers" = true ∧
    (⟨fun _ => true, fun _ => [], fun _ => []⟩ :
        SemanticSearch).extractSectors "top gainers" = [] ∧
    bleveSearch (some ⟨fun _ => true, fun _ => [], fun _ => []⟩)
        (fun _ => .ok []) "top gainers"
      = regularSearch (fun _ => .ok []) "top gainers" :=
  ⟨rfl, rfl, thematic_no_sector_falls_back _ _ _ rfl rfl⟩

/-! ### Claim C10 -/

/-- C10: the lookup operations request only the six fields symbol,
name, exchange, type, brand, popularity_score from the store, and any
instrument they return has empty sector, industry and tags. -/
theorem lookup_results_have_no_classification (store : Store) (s x : String) :
    (getBySymbolRequest s).fields
        = ["symbol", "name", "exchange", "type", "brand", "popularity_score"] ∧
    (getStockRequest s x).fields
        = ["symbol", "name", "exchange", "type", "brand", "popularity_score"] ∧
    (∀ st, getBySymbol store s = some st →
       st.sector = "" ∧ st.industry = "" ∧ st.tags = "") ∧
    (∀ st, getStock store s x = some st →
       st.sector = "" ∧ st.industry = "" ∧ st.tags = "") := by
  have key : ∀ st, getBySymbol store s = some st →
      st.sector = "" ∧ st.industry = "" ∧ st.tags = "" := by
    intro st h
    rcases hres : store (getBySymbolRequest s) with e | hits
    · rw [getBySymbol, hres] at h; cases h
    · rw [getBySymbol, hres] at h
      cases hits with
      | nil => cases h
      | cons hit rest =>
        have : stockOfLookupHit hit = st := by injection h
        subst this
        exact ⟨rfl, rfl, rfl⟩
  refine ⟨rfl, rfl, key, ?_⟩
  intro st h
  by_cases hx : x = ""
  · rw [getStock, if_neg (by simp [hx])] at h
    exact key st h
  · rw [getStock, if_pos hx] at h
    rcases hres : store (getStockRequest s x) with e | hits
    · rw [hres] at h; exact key st h
    · rw [hres] at h
      cases hits with
      | nil => exact key st h
      | cons hit rest =>
        have : stockOfLookupHit hit = st := by injection h
        subst this
        exact ⟨rfl, rfl, rfl⟩

theorem lookup_results_have_no_classification_witness :
    (stockOfLookupHit (sampleHit "abc" 1 1)).sector = ""
    ∧ (stockOfLookupHit (sampleHit "abc" 1 1)).industry = ""
    ∧ (stockOfLookupHit (sampleHit "abc" 1 1)).tags = "" :=
  (lookup_results_have_no_classification
    (fun _ => .ok [sampleHit "abc" 1 1]) "abc" "NSE").2.2.1 _ rfl

/-! ### Claim C5 -/

/-- C5 counterexample: the claim also covers `InMemoryEngine.GetStock`,
where an empty requested exchange does not short-circuit to
`GetBySymbol`: the conjunctive scan runs first and can return a stored
instrument whose exchange is itself empty, which differs from the
`GetBySymbol` result. -/
theorem getStock_empty_exchange_cex :
    inMemoryGetStock [sampleStock "A" "NSE", sampleStock "A" ""] "A" ""
        = some (sampleStock "A" "") ∧
    inMemoryGetBySymbol [sampleStock "A" "NSE", sampleStock "A" ""] "A"
        = some (sampleStock "A" "NSE") ∧
    sampleStock "A" "" ≠ sampleStock "A" "NSE" := by
  refine ⟨?_, ?_, ?_⟩ <;> decide

/-- C5 (amended): for the Bleve engine the claim holds as stated —
with a non-empty exchange and a hit, the conjunctive query's first hit
is returned, and in every other case (empty exchange, zero hits, store
error) the result is exactly `getBySymbol`.  For the in-memory engine
the conjunctive linear scan decides the fallback: whatever it finds
(which, when the requested exchange is empty, can be a stored
instrument whose exchange is empty) is returned, and only a failed scan
falls back to `getBySymbol`. -/
theorem getStock_conjunctive_with_fallback (store : Store) (s x : String)
    (stocks : List Stock) :
    (x ≠ "" → ∀ hit rest, store (getStockRequest s x) = .ok (hit :: rest) →
      getStock store s x = some (stockOfLookupHit hit)) ∧
    (x = "" → getStock store s x = getBySymbol store s) ∧
    (∀ e, store (getStockRequest s x) = .error e →
      getStock store s x = getBySymbol store s) ∧
    (store (getStockRequest s x) = .ok [] →
      getStock store s x = getBySymbol store s) ∧
    (∀ st, stocks.find? (fun stock =>
        equalFold stock.symbol s && equalFold stock.exchange x) = some st →
      inMemoryGetStock stocks s x = some st) ∧
    (stocks.find? (fun stock =>
        equalFold stock.symbol s && equalFold stock.exchange x) = none →
      inMemoryGetStock stocks s x = inMemoryGetBySymbol stocks s) := by
  refine ⟨?_, ?_, ?_, ?_, ?_, ?_⟩
  · intro hx hit rest hres
    rw [getStock, if_pos hx, hres]
  · intro hx
    rw [getStock, if_neg (by simp [hx])]
  · intro e hres
    by_cases hx : x = ""
    · rw [getStock, if_neg (by simp [hx])]
    · rw [getStock, if_pos hx, hres]
  · intro hres
    by_cases hx : x = ""
    · rw [getStock, if_neg (by simp [hx])]
    · rw [getStock, if_pos hx, hres]
  · intro st h
    rw [inMemoryGetStock, h]
  · intro h
    rw [inMemoryGetStock, h]

theorem getStock_conjunctive_with_fallback_witness :
    getStock (fun _ => .ok [sampleHit "a" 1 1]) "a" "NSE"
        = some (stockOfLookupHit (sampleHit "a" 1 1)) ∧
    inMemoryGetStock [sampleStock "B" "NSE"] "A" "BSE"
        = inMemoryGetBySymbol [sampleStock "B" "NSE"] "A" := by
  have h := getStock_conjunctive_with_fallback
    (fun _ => .ok [sampleHit "a" 1 1]) "a" "NSE" [sampleStock "B" "NSE"]
  exact ⟨h.1 (by decide) _ _ rfl, h.2.2.2.2.2 (by decide)⟩

/-! ### Claim C9 -/

theorem lookup_mem {l : List (String × ℚ)} {k : String} {v : ℚ}
    (h : l.lookup k = some v) : (k, v) ∈ l := by
  rcases List.lookup_eq_some_iff.mp h with ⟨l₁, l₂, rfl, -⟩
  simp

/-- C9: the popularity score assigned at load time always lies in
[0, 1]; it is either the default 0.2 or one of the fixed tier values,
all of which lie between 0.40 and 1. -/
theorem popularity_score_in_unit_interval (symbol : String) :
    (0 ≤ calculatePopularityScore symbol
      ∧ calculatePopularityScore symbol ≤ 1)
    ∧ (calculatePopularityScore symbol = 0.2
      ∨ (0.4 ≤ calculatePopularityScore symbol
          ∧ calculatePopularityScore symbol ≤ 1)) := by
  have ht1 : ∀ p ∈ tier1, (0.4 : ℚ) ≤ p.2 ∧ p.2 ≤ 1 := by
    intro p hp
    fin_cases hp <;> norm_num
  have ht2 : ∀ p ∈ tier2, (0.4 : ℚ) ≤ p.2 ∧ p.2 ≤ 1 := by
    intro p hp
    fin_cases hp <;> norm_num
  have ht3 : ∀ p ∈ tier3, (0.4 : ℚ) ≤ p.2 ∧ p.2 ≤ 1 := by
    intro p hp
    fin_cases hp <;> norm_num
  simp only [calculatePopularityScore]
  split
  · next v hv =>
    have hb := ht1 _ (lookup_mem hv)
    exact ⟨⟨by linarith [hb.1], hb.2⟩, Or.inr hb⟩
  · next hn1 =>
    split
    · next v hv =>
      have hb := ht2 _ (lookup_mem hv)
      exact ⟨⟨by linarith [hb.1], hb.2⟩, Or.inr hb⟩
    · next hn2 =>
      split
      · next v hv =>
        have hb := ht3 _ (lookup_mem hv)
        exact ⟨⟨by linarith [hb.1], hb.2⟩, Or.inr hb⟩
      · next hn3 =>
        exact ⟨⟨by norm_num, by norm_num⟩, Or.inl rfl⟩

/-! ### Claim C1 -/

/-- C1: in the regular path, every candidate's final score is its text
relevance times 0.7 plus its popularity score times 0.3, and the
returned list is the scored candidates' stocks arranged in descending
final-score order (a permutation of the retrieved hits). -/
theorem regular_final_score_and_order (store : Store) (q : String)
    (hits : List Hit) (hok : store (regularSearchRequest q) = .ok hits) :
    (∀ hit ∈ hits, (scoreHit hit).finalScore
        = hit.score * 0.7 + (stockOfHit hit).popularityScore * 0.3) ∧
    ∃ sorted, List.Perm (hits.map scoreHit) sorted
      ∧ regularSearch store q = sorted.map (fun s => s.stock)
      ∧ List.Pairwise (fun a b => b.finalScore ≤ a.finalScore) sorted := by
  refine ⟨fun hit _ => rfl,
    sortScored (fun s => s.finalScore) (hits.map scoreHit),
    (sortScored_perm ..).symm, ?_, sortScored_pairwise ..⟩
  simp [regularSearch, hok, regularSearchHits]

theorem regular_final_score_and_order_witness :
    ∃ sorted, List.Perm ([sampleHit "aaa" 1 0].map scoreHit) sorted
      ∧ regularSearch (fun _ => .ok [sampleHit "aaa" 1 0]) "q"
          = sorted.map (fun s => s.stock)
      ∧ List.Pairwise (fun a b => b.finalScore ≤ a.finalScore) sorted :=
  (regular_final_score_and_order (fun _ => .ok [sampleHit "aaa" 1 0]) "q"
    [sampleHit "aaa" 1 0] rfl).2

/-! ### Claim C2 -/

/-- C2 counterexample: the exchange sort both paths use is not stable.
With retrieval order [aaa (score 1), bbb (score 1), ccc (score 2)] and
equal popularity, aaa and bbb have equal final scores and aaa precedes
bbb in retrieval order, yet the regular path returns bbb before aaa. -/
theorem tie_order_not_preserved_cex :
    (scoreHit (sampleHit "aaa" 1 0)).finalScore
        = (scoreHit (sampleHit "bbb" 1 0)).finalScore ∧
    regularSearch (fun _ => .ok
        [sampleHit "aaa" 1 0, sampleHit "bbb" 1 0, sampleHit "ccc" 2 0]) "q"
      = [stockOfHit (sampleHit "ccc" 2 0), stockOfHit (sampleHit "bbb" 1 0),
         stockOfHit (sampleHit "aaa" 1 0)] ∧
    stockOfHit (sampleHit "aaa" 1 0) ≠ stockOfHit (sampleHit "bbb" 1 0) := by
  refine ⟨by norm_num [scoreHit, sampleHit, sampleFields, getFloat], ?_,
    by simp [stockOfHit, sampleHit, sampleFields, getString]⟩
  show regularSearchHits _ = _
  rw [regularSearchHits, sortScored_eq_sortStruct]
  norm_num [sortStruct, sortStructAux, selectMax, scoreHit, sampleHit,
    sampleFields, getFloat]

/-- C2 (amended): both paths order their output by final score
descending and return a permutation of the scored candidates' stocks;
but the sort is not stable, so candidates with equal final scores may
appear in an order different from the store's retrieval order. -/
theorem sort_descending_both_paths (hits : List Hit) :
    (∃ sorted, List.Perm (hits.map scoreHit) sorted
      ∧ regularSearchHits hits = sorted.map (fun s => s.stock)
      ∧ List.Pairwise (fun a b => b.finalScore ≤ a.finalScore) sorted) ∧
    (∃ sorted, List.Perm (hits.map semScoreHit) sorted
      ∧ semanticSearchHits hits = sorted.map (fun s => s.stock)
      ∧ List.Pairwise (fun a b => b.finalScore ≤ a.finalScore) sorted) :=
  ⟨⟨_, (sortScored_perm ..).symm, rfl, sortScored_pairwise ..⟩,
   ⟨_, (sortScored_perm ..).symm, rfl, sortScored_pairwise ..⟩⟩

/-! ### Claim C4 -/

/-- C4: in the thematic path with a resolved non-empty symbol set, each
candidate's final score is its popularity score alone (hit text scores
are discarded: rescoring the hits arbitrarily does not change the
output), and the output is ordered by popularity score descending. -/
theorem thematic_scores_popularity_only (sem : SemanticSearch)
    (store : Store) (q : String) (hits : List Hit)
    (hthem : sem.isSemanticQuery q = true)
    (hsec : sem.extractSectors q ≠ [])
    (hsym : sem.getStockSymbolsForSectors (sem.extractSectors q) ≠ [])
    (hok : store (semanticSearchRequest
        (sem.getStockSymbolsForSectors (sem.extractSectors q))) = .ok hits) :
    (∀ hit ∈ hits, (semScoreHit hit).finalScore
        = (stockOfHit hit).popularityScore) ∧
    (∀ f : Hit → ℚ,
      semanticSearchHits (hits.map (fun h => { h with score := f h }))
        = semanticSearchHits hits) ∧
    List.Pairwise (fun a b => b.popularityScore ≤ a.popularityScore)
      (bleveSearch (some sem) store q) ∧
    ∃ sorted, List.Perm (hits.map semScoreHit) sorted
      ∧ bleveSearch (some sem) store q = sorted.map (fun s => s.stock)
      ∧ List.Pairwise (fun a b => b.finalScore ≤ a.finalScore) sorted := by
  have h1 : (sem.extractSectors q).isEmpty = false := by
    cases hh : (sem.extractSectors q).isEmpty
    · rfl
    · exact absurd (List.isEmpty_iff.mp hh) hsec
  have h2 : (sem.getStockSymbolsForSectors (sem.extractSectors q)).isEmpty
      = false := by
    cases hh : (sem.getStockSymbolsForSectors (sem.extractSectors q)).isEmpty
    · rfl
    · exact absurd (List.isEmpty_iff.mp hh) hsym
  have hout : bleveSearch (some sem) store q = semanticSearchHits hits := by
    simp [bleveSearch, hthem, semanticSearch, h1, h2, hok]
  have hmap : ∀ f : Hit → ℚ,
      semanticSearchHits (hits.map (fun h => { h with score := f h }))
        = semanticSearchHits hits := by
    intro f
    rw [semanticSearchHits, semanticSearchHits, List.map_map]
    rfl
  have hinv : ∀ s ∈ sortScored (fun s : SemScoredStock => s.finalScore)
      (hits.map semScoreHit), s.finalScore = s.stock.popularityScore := by
    intro s hs
    have hmem : s ∈ hits.map semScoreHit := (sortScored_perm ..).mem_iff.mp hs
    rcases List.mem_map.mp hmem with ⟨hit, -, rfl⟩
    rfl
  refine ⟨fun hit _ => rfl, hmap, ?_,
    sortScored (fun s => s.finalScore) (hits.map semScoreHit),
    (sortScored_perm ..).symm, by rw [hout, semanticSearchHits],
    sortScored_pairwise ..⟩
  rw [hout, semanticSearchHits]
  refine List.pairwise_map.mpr ?_
  refine (sortScored_pairwise (fun s => s.finalScore)
    (hits.map semScoreHit)).imp_of_mem ?_
  intro a b ha hb hle
  rw [← hinv a ha, ← hinv b hb]
  exact hle

theorem thematic_scores_popularity_only_witness :
    semanticSearchHits ([sampleHit "aaa" 1 (1/2)].map
        (fun h => { h with score := 5 }))
      = semanticSearchHits [sampleHit "aaa" 1 (1/2)] ∧
    List.Pairwise (fun a b => b.popularityScore ≤ a.popularityScore)
      (bleveSearch (some ⟨fun _ => true, fun _ => ["s"], fun _ => ["A"]⟩)
        (fun _ => .ok [sampleHit "aaa" 1 (1/2)]) "top") := by
  have h := thematic_scores_popularity_only
    ⟨fun _ => true, fun _ => ["s"], fun _ => ["A"]⟩
    (fun _ => .ok [sampleHit "aaa" 1 (1/2)]) "top"
    [sampleHit "aaa" 1 (1/2)] rfl (by simp) (by simp) rfl
  exact ⟨h.2.1 (fun _ => 5), h.2.2.1⟩

/-! ### Claim C8 -/

/-- C8 (under the spec's clause-scoring model): a query equal
case-insensitively to an instrument's symbol gives that instrument a
final score strictly above any instrument matched only by the
substring/wildcard clauses, when both have the same popularity. -/
theorem exact_symbol_beats_substring_only (q : String) (A B : Stock)
    (hA : toLowerStr A.symbol = toLowerStr q)
    (hBterm : satisfiesLeaf B (.term (toLowerStr q) "symbol" 10) = false)
    (hBpre : satisfiesLeaf B (.prefixQ (toLowerStr q) "symbol" 5) = false)
    (hBmatch : satisfiesLeaf B (.matchQ q "name" 3) = false)
    (_hBwild :
      satisfiesLeaf B (.wildcard ("*" ++ toLowerStr q ++ "*") "symbol" 2) = true
      ∨ satisfiesLeaf B (.wildcard ("*" ++ toLowerStr q ++ "*") "name" 1.5) = true
      ∨ satisfiesLeaf B (.wildcard ("*" ++ toLowerStr q ++ "*") "brand" 1) = true)
    (hpop : A.popularityScore = B.popularityScore) :
    specFinalScore B q < specFinalScore A q := by
  have hAterm : satisfiesLeaf A (.term (toLowerStr q) "symbol" 10) = true := by
    simp [satisfiesLeaf, fieldValue, hA]
  have hle : ∀ (c : Bool) (b : ℚ), 0 ≤ b → (if c = true then b else 0) ≤ b := by
    intro c b hb; split <;> simp [hb]
  have hge : ∀ (c : Bool) (b : ℚ), 0 ≤ b → 0 ≤ (if c = true then b else 0) := by
    intro c b hb; split <;> simp [hb]
  simp only [specFinalScore, specTextRelevance, regularSearchQuery,
    List.map_cons, List.map_nil, List.sum_cons, List.sum_nil, leafBoost]
  rw [hAterm, hBterm, hBpre, hBmatch]
  simp only [if_true, Bool.false_eq_true, if_false]
  have b4 := hle (satisfiesLeaf B
    (.wildcard ("*" ++ toLowerStr q ++ "*") "symbol" 2)) 2 (by norm_num)
  have b5 := hle (satisfiesLeaf B
    (.wildcard ("*" ++ toLowerStr q ++ "*") "name" 1.5)) 1.5 (by norm_num)
  have b6 := hle (satisfiesLeaf B
    (.wildcard ("*" ++ toLowerStr q ++ "*") "brand" 1)) 1 (by norm_num)
  have a2 := hge (satisfiesLeaf A
    (.prefixQ (toLowerStr q) "symbol" 5)) 5 (by norm_num)
  have a3 := hge (satisfiesLeaf A (.matchQ q "name" 3)) 3 (by norm_num)
  have a4 := hge (satisfiesLeaf A
    (.wildcard ("*" ++ toLowerStr q ++ "*") "symbol" 2)) 2 (by norm_num)
  have a5 := hge (satisfiesLeaf A
    (.wildcard ("*" ++ toLowerStr q ++ "*") "name" 1.5)) 1.5 (by norm_num)
  have a6 := hge (satisfiesLeaf A
    (.wildcard ("*" ++ toLowerStr q ++ "*") "brand" 1)) 1 (by norm_num)
  rw [hpop]
  nlinarith [b4, b5, b6, a2, a3, a4, a5, a6]

theorem exact_symbol_beats_substring_only_witness :
    specFinalScore
        { symbol := "XYZ", name := "atcsb", exchange := "", type := ""
        , brand := "", sector := "", industry := "", tags := ""
        , popularityScore := 0 } "tcs"
      < specFinalScore (sampleStock "TCS" "NSE") "tcs" := by
  apply exact_symbol_beats_substring_only
  · decide
  · decide
  · decide
  · decide
  · right; left; decide
  · rfl

end StockSearch
